import Mathlib

/-
  Verification development for the `pioneer` entity codec.

  The embedding models the TypeScript module that converts between
  Substrate codec values and plain JavaScript values (`substrateToPlain`,
  `plainToSubstrate`), and the `EntityCodec` class that builds a
  bidirectional property-name/property-index map from a class schema and
  converts raw entities to plain objects and partial updates to Substrate
  update vectors.  JavaScript values are modelled by the inductive
  `JsValue` (numbers as integers), JavaScript `Map` objects by association
  lists with `Map.get`/`Map.set` semantics, and exceptions by `Except`.
-/

namespace Pioneer

/-- Model of JavaScript `String.prototype.toLowerCase` (ASCII):
lower-cases every character. -/
def jsToLower (s : String) : String :=
  String.mk (s.data.map Char.toLower)

/-- Model of a plain JavaScript value as it flows through the codec:
strings, numbers (modelled as integers; the codec paths verified here only
use integral numbers), booleans, arrays, plain objects (payload irrelevant
to every codec path, hence nullary), `undefined` and `null`. -/
inductive JsValue where
  | str (s : String)
  | num (n : Int)
  | bool (b : Bool)
  | arr (xs : List JsValue)
  | obj
  | undef
  | nullV
deriving Repr

/-- Association-list lookup with JavaScript `Map.get` semantics
(first — and by construction only — binding of the key). -/
def mapGet {α β : Type} [DecidableEq α] : List (α × β) → α → Option β
  | [], _ => none
  | p :: ps, k => if p.1 = k then some p.2 else mapGet ps k

/-- Association-list update with JavaScript `Map.set` semantics: an
existing binding is overwritten in place, a fresh key is appended. -/
def mapSet {α β : Type} [DecidableEq α] : List (α × β) → α → β → List (α × β)
  | [], k, v => [(k, v)]
  | p :: ps, k, v => if p.1 = k then (k, v) :: ps else p :: mapSet ps k v

/-- Model of a Substrate codec value as dispatched on by `substrateToPlain`:
a `Text`, a big number (`BN`), a `bool`, a `Vec`, any other codec object
(identified by its string form), or the null/absent representation. -/
inductive SubstrateValue where
  | text (s : String)
  | bn (n : Int)
  | sbool (b : Bool)
  | vec (xs : List SubstrateValue)
  | other (s : String)
  | nullV
deriving Repr

/-- JavaScript coercion of an `undefined` decode result stored into an
array slot (a JS array may hold `undefined` elements). -/
def jsOfOpt : Option JsValue → JsValue
  | none => JsValue.undef
  | some v => v

mutual
/-- Embedding of `substrateToPlain` (src/unnamed/part_000, lines 14-30):
dispatches on the runtime representation of the codec value.  `Text`
becomes a string, `BN` a number (the big-number-to-number conversion is
modelled as exact on integers, the spec's accepted lossy boundary), `bool`
a boolean, `Vec` an element-wise recursive decode, any other non-null
codec its string form; the null/absent representation decodes to
`undefined` (`none`). -/
def substrateToPlain : SubstrateValue → Option JsValue
  | .text s => some (.str s)
  | .bn n => some (.num n)
  | .sbool b => some (.bool b)
  | .vec xs => some (.arr (substrateToPlainList xs))
  | .other s => some (.str s)
  | .nullV => none

/-- Element-wise decode used by the `Vec` branch of `substrateToPlain`
(the JS `x.map(y => substrateToPlain(y))`). -/
def substrateToPlainList : List SubstrateValue → List JsValue
  | [] => []
  | y :: ys => jsOfOpt (substrateToPlain y) :: substrateToPlainList ys
end

/-- The tagged union of Substrate property values produced by
`plainToSubstrate` (the `PropertyValue` enum of the versioned store).
Scalar integer, text and internal variants carry the plain value passed
to them unchanged (the TS constructors receive the value through a cast,
not a conversion); the boolean variants carry the coerced booleans. -/
inductive PropertyValueEnum where
  | none_
  | bool_ (b : Bool)
  | uint16 (v : JsValue)
  | uint32 (v : JsValue)
  | uint64 (v : JsValue)
  | int16 (v : JsValue)
  | int32 (v : JsValue)
  | int64 (v : JsValue)
  | text (v : JsValue)
  | internal (v : JsValue)
  | boolVec (bs : List Bool)
  | uint16Vec (v : JsValue)
  | uint32Vec (v : JsValue)
  | uint64Vec (v : JsValue)
  | int16Vec (v : JsValue)
  | int32Vec (v : JsValue)
  | int64Vec (v : JsValue)
  | textVec (v : JsValue)
  | internalVec (v : JsValue)
deriving Repr

/-- Embedding of the `valueAsBool` closure of `plainToSubstrate`
(src/unnamed/part_000, lines 47-59): a string or number is lower-cased in
its string form and tested for membership in `true/yes/1`; a native
boolean passes through; anything else throws. -/
def valueAsBool (value : JsValue) : Except String Bool :=
  match value with
  | .str s =>
    let v := jsToLower s
    if ["true", "yes", "1"].contains v then .ok true else .ok false
  | .num n =>
    let v := jsToLower (toString n)
    if ["true", "yes", "1"].contains v then .ok true else .ok false
  | .bool b => .ok b
  | _ => .error ("Unsupported representation of a boolean value")

/-- JavaScript `Array.prototype.map` with a throwing callback: elements
are processed left to right and the first exception aborts the map. -/
def mapExcept {α β : Type} (f : α → Except String β) : List α → Except String (List β)
  | [] => .ok []
  | x :: xs =>
    match f x with
    | .ok b =>
      match mapExcept f xs with
      | .ok bs => .ok (b :: bs)
      | .error e => .error e
    | .error e => .error e

/-- Embedding of the `valueAsBoolArr` closure (src/unnamed/part_000,
lines 61-63): `(value as []).map(valueAsBool)`.  In the source
`valueAsBool` is a nullary closure over the outer `value`, so every call
made by `map` ignores the array element it is passed and coerces the
captured `value` itself — the whole array — which is neither string,
number nor boolean and therefore throws: a non-empty array fails on its
first element and only the empty array succeeds (vacuously).  A
non-array value has no `map` method, which is a `TypeError`. -/
def valueAsBoolArr (value : JsValue) : Except String (List Bool) :=
  match value with
  | .arr xs => mapExcept (fun _elem => valueAsBool (.arr xs)) xs
  | _ => .error ("TypeError: value.map is not a function")

/-- Embedding of `plainToSubstrate` (src/unnamed/part_000, lines 41-96):
dispatch on the declared property type name.  Scalar and vector variants
other than the boolean ones wrap the input value unchanged; `Bool` and
`BoolVec` apply the boolean coercion; an unrecognised type name throws. -/
def plainToSubstrate (propType : String) (value : JsValue) : Except String PropertyValueEnum :=
  match propType with
  | "None" => .ok .none_
  | "Bool" => (valueAsBool value).map PropertyValueEnum.bool_
  | "Uint16" => .ok (.uint16 value)
  | "Uint32" => .ok (.uint32 value)
  | "Uint64" => .ok (.uint64 value)
  | "Int16" => .ok (.int16 value)
  | "Int32" => .ok (.int32 value)
  | "Int64" => .ok (.int64 value)
  | "Text" => .ok (.text value)
  | "Internal" => .ok (.internal value)
  | "BoolVec" => (valueAsBoolArr value).map PropertyValueEnum.boolVec
  | "Uint16Vec" => .ok (.uint16Vec value)
  | "Uint32Vec" => .ok (.uint32Vec value)
  | "Uint64Vec" => .ok (.uint64Vec value)
  | "Int16Vec" => .ok (.int16Vec value)
  | "Int32Vec" => .ok (.int32Vec value)
  | "Int64Vec" => .ok (.int64Vec value)
  | "TextVec" => .ok (.textVec value)
  | "InternalVec" => .ok (.internalVec value)
  | _ => .error ("Unknown property type name: " ++ propType)

/-- Splits a string into its maximal runs of alphanumeric characters
(accumulator holds the current run, reversed). -/
def wordsAux : List Char → List Char → List String
  | [], acc => if acc.isEmpty then [] else [String.mk acc.reverse]
  | c :: cs, acc =>
    if c.isAlphanum then wordsAux cs (c :: acc)
    else if acc.isEmpty then wordsAux cs []
    else String.mk acc.reverse :: wordsAux cs []

/-- The maximal alphanumeric runs of a string, in order. -/
def asciiWords (s : String) : List String := wordsAux s.data []

/-- Lower-cases a word and upper-cases its first character. -/
def capitalizeWord (w : String) : String :=
  match (jsToLower w).data with
  | [] => ""
  | c :: cs => String.mk (c.toUpper :: cs)

/-- Modelled from the spec: the canonicalization rule converting a
human-friendly property name to a JS field name (lodash `camelCase`,
an external library; modelled for ASCII inputs as: split into maximal
alphanumeric runs, lower-case the first run, capitalize the rest —
for example `Full Name` becomes `fullName` and a name with no
alphanumeric characters becomes the empty string). -/
def camelCase (s : String) : String :=
  match asciiWords s with
  | [] => ""
  | w :: ws => jsToLower w ++ String.join (ws.map capitalizeWord)

/-- Embedding of `propNameToJsFieldStyle` (src/unnamed/part_000,
lines 98-100). -/
def propNameToJsFieldStyle (humanFriendlyPropName : String) : String :=
  camelCase humanFriendlyPropName

/-- Per-property metadata stored in the forward map: the property's
in-class index and its declared type name. -/
structure PropMeta where
  index : Nat
  type : String
deriving Repr, DecidableEq

/-- One property descriptor of a class schema: the human-friendly name
and the declared type name (the source reads `p.prop_type.type.toString()`;
the type name string is modelled directly). -/
structure ClassProperty where
  name : String
  prop_type : String
deriving Repr

/-- A class schema: the ordered list of property descriptors (the source
type `Class`; only its `properties` field is used by the codec). -/
structure Class where
  properties : List ClassProperty
deriving Repr

/-- The two maps owned by an `EntityCodec` instance. -/
structure EntityCodec where
  propNameToMetaMap : List (String × PropMeta)
  propIndexToNameMap : List (Nat × String)
deriving Repr

/-- The loop body of the `EntityCodec` constructor (src/unnamed/part_000,
lines 138-145): walks the schema's properties with their zero-based
position, canonicalizes each name, and records both map directions. -/
def registerProps : EntityCodec → Nat → List ClassProperty → EntityCodec
  | c, _, [] => c
  | c, index, p :: ps =>
    let propName := propNameToJsFieldStyle p.name
    let propMeta : PropMeta := ⟨index, p.prop_type⟩
    registerProps
      ⟨mapSet c.propNameToMetaMap propName propMeta,
       mapSet c.propIndexToNameMap index propName⟩
      (index + 1) ps

/-- Embedding of the `EntityCodec` constructor: builds both maps from the
class schema, starting from empty maps and index 0. -/
def EntityCodec.ofClass (entityClass : Class) : EntityCodec :=
  registerProps ⟨[], []⟩ 0 entityClass.properties

/-- Embedding of `inClassIndexOfProp` (src/unnamed/part_000,
lines 147-149): optional-chained lookup of the index in the forward map. -/
def inClassIndexOfProp (codec : EntityCodec) (propName : String) : Option Nat :=
  (mapGet codec.propNameToMetaMap propName).map (fun m => m.index)

/-- One element of a raw entity's `entity_values`: the in-class index and
the inner codec value (`v.value.value` in the source). -/
structure EntityValue where
  in_class_index : Nat
  value : SubstrateValue
deriving Repr

/-- A raw entity record as consumed by `toPlainObject`; the numeric
metadata fields are modelled as integers (`toNumber` applied). -/
structure Entity where
  class_id : Int
  in_class_schema_indexes : List Int
  id : Int
  entity_values : List EntityValue
deriving Repr

/-- The plain object produced by `toPlainObject`: the three fixed metadata
fields plus the name-keyed property fields.  A field's value is an
`Option JsValue` because the JS assignment stores whatever
`substrateToPlain` returned, `undefined` included. -/
structure PlainEntity where
  classId : Int
  inClassSchemaIndexes : List Int
  id : Int
  fields : List (String × Option JsValue)
deriving Repr

/-- The per-value body of the `forEach` in `toPlainObject`
(src/unnamed/part_000, lines 161-167): look the index up in the reverse
map and, when the resulting name is truthy (present and non-empty),
assign the decoded value under that name. -/
def applyEntityValue (codec : EntityCodec) (fs : List (String × Option JsValue))
    (v : EntityValue) : List (String × Option JsValue) :=
  match mapGet codec.propIndexToNameMap v.in_class_index with
  | some propName =>
    if propName = "" then fs else mapSet fs propName (substrateToPlain v.value)
  | none => fs

/-- Embedding of `toPlainObject` (src/unnamed/part_000, lines 154-170):
copies the metadata fields and folds the per-value assignment over the
raw entity's values. -/
def toPlainObject (codec : EntityCodec) (entity : Entity) : PlainEntity :=
  { classId := entity.class_id
    inClassSchemaIndexes := entity.in_class_schema_indexes
    id := entity.id
    fields := entity.entity_values.foldl (applyEntityValue codec) [] }

/-- Embedding of `toPlainObjects` (src/unnamed/part_000, lines 172-176):
maps `toPlainObject` and filters with the source's `typeof e !== undefined`
test, which compares a string against `undefined` and is therefore true
for every element. -/
def toPlainObjects (codec : EntityCodec) (entities : List Entity) : List PlainEntity :=
  (entities.map (toPlainObject codec)).filter (fun _e => true)

/-- The loop body of `toSubstrateUpdate` (src/unnamed/part_000,
lines 191-211): for a key present in the forward map, try the per-field
encoding; a throw is caught (and logged) leaving the codec value
undefined, so only a successful encoding pushes an entry.  The pushed
index goes through the `u16` constructor, hence the reduction modulo
2^16. -/
def updateStep (codec : EntityCodec) (res : List (Nat × PropertyValueEnum))
    (p : String × JsValue) : List (Nat × PropertyValueEnum) :=
  match mapGet codec.propNameToMetaMap p.1 with
  | some meta =>
    match plainToSubstrate meta.type p.2 with
    | .ok codecValue => res ++ [(meta.index % 65536, codecValue)]
    | .error _ => res
  | none => res

/-- Embedding of `toSubstrateUpdate` (src/unnamed/part_000,
lines 183-213): iterates the update's keys in enumeration order and
collects the successfully encoded `(index, value)` entries. -/
def toSubstrateUpdate (codec : EntityCodec)
    (updatedProps : List (String × JsValue)) : List (Nat × PropertyValueEnum) :=
  updatedProps.foldl (updateStep codec) []

/-- The numeric reading of a plain value accepted by the integer
variants: a number directly, a numeric string by parsing. -/
def jsNumeric : JsValue → Option Int
  | .num n => some n
  | .str s => s.toInt?
  | _ => none

/-- Raw form of an integer-variant payload: the numeric codec stores the
accepted numeric reading as a big number; a payload with no numeric
reading has no defined raw form here. -/
def rawNumeric (v : JsValue) : SubstrateValue :=
  match jsNumeric v with
  | some n => .bn n
  | none => .nullV

/-- Modelled from the spec: the on-chain codec value wrapped by each
`PropertyValue` variant, as `substrateToPlain` would receive it back
(the `PropertyValue` module itself is not under src).  Per the spec,
the none variant is the null/absent representation, boolean variants
wrap native booleans, integer variants wrap big-number values, and the
text and internal-reference variants wrap their identifier/text string.
Vector variants other than the boolean one play no role in the scalar
round-trip claim and are left at the null representation. -/
def pvToRaw : PropertyValueEnum → SubstrateValue
  | .none_ => .nullV
  | .bool_ b => .sbool b
  | .uint16 v => rawNumeric v
  | .uint32 v => rawNumeric v
  | .uint64 v => rawNumeric v
  | .int16 v => rawNumeric v
  | .int32 v => rawNumeric v
  | .int64 v => rawNumeric v
  | .text (.str s) => .text s
  | .text _ => .nullV
  | .internal (.str s) => .text s
  | .internal _ => .nullV
  | .boolVec bs => .vec (bs.map SubstrateValue.sbool)
  | _ => .nullV

/-- The fixed set of scalar (non-vector) property type names. -/
def scalarTypeNames : List String :=
  ["None", "Bool", "Uint16", "Uint32", "Uint64",
   "Int16", "Int32", "Int64", "Text", "Internal"]

/-- Representative plain values per scalar type name: any value for
`None` (the encoder ignores it), a native boolean for `Bool`, an
in-range integer for the integer types, and a string for `Text` and
`Internal`.  The 64-bit integer ranges are additionally capped to the
JavaScript safe-integer range (magnitude below 2^53): beyond it the
big-number/number boundary loses precision or fails in the underlying
numeric codec, which the spec records as an accepted lossy boundary, so
such values are not representative round-trip inputs. -/
def isRepresentative : String → JsValue → Bool
  | "None", _ => true
  | "Bool", .bool _ => true
  | "Uint16", .num n => decide (0 ≤ n ∧ n < 65536)
  | "Uint32", .num n => decide (0 ≤ n ∧ n < 4294967296)
  | "Uint64", .num n => decide (0 ≤ n ∧ n < 9007199254740992)
  | "Int16", .num n => decide (-32768 ≤ n ∧ n < 32768)
  | "Int32", .num n => decide (-2147483648 ≤ n ∧ n < 2147483648)
  | "Int64", .num n => decide (-9007199254740992 < n ∧ n < 9007199254740992)
  | "Text", .str _ => true
  | "Internal", .str _ => true
  | _, _ => false

/-- Encode a plain value at a declared type name, materialize the raw
on-chain codec value of the result, and decode it back: `none` when the
encoding step throws, otherwise the decoded plain value. -/
def encodeDecode (t : String) (v : JsValue) : Option (Option JsValue) :=
  match plainToSubstrate t v with
  | .ok pv => some (substrateToPlain (pvToRaw pv))
  | .error _ => none

/-- Whether a plain value has one of the shapes the boolean coercion
accepts (string, number or boolean). -/
def isBoolCoercible : JsValue → Bool
  | .str _ => true
  | .num _ => true
  | .bool _ => true
  | _ => false

/-- Embedding of `registerVersionedStorePermissionsTypes`
(src/packages/joy-types/src/versioned-store/permissions/index.ts,
lines 10-24).  The outcome of the external
`getTypeRegistry().register(...)` call is the parameter; the `try/catch`
turns a registration failure into a `console.error` log line and a
normal return.  The result pairs the unit return value with the log
lines emitted, inside `Except` to express that the function itself
never throws. -/
def registerVersionedStorePermissionsTypes (registerAttempt : Except String Unit) :
    Except String (Unit × List String) :=
  match registerAttempt with
  | .ok _ => .ok ((), [])
  | .error _ =>
    .ok ((), ["Failed to register custom types of versioned store module"])

/-- An operation performed on one of the two maps owned by an
`EntityCodec` instance. -/
inductive MapOp where
  | getName (k : String)
  | setName (k : String) (m : PropMeta)
  | getIdx (k : Nat)
  | setIdx (k : Nat) (v : String)
deriving Repr

/-- Whether a map operation is a read. -/
def MapOp.isRead : MapOp → Bool
  | .getName _ => true
  | .getIdx _ => true
  | _ => false

/-- Applies a trace of map operations to the codec state: writes mutate
the corresponding map, reads leave the state unchanged. -/
def applyMapOps : EntityCodec → List MapOp → EntityCodec
  | c, [] => c
  | c, op :: ops =>
    applyMapOps
      (match op with
       | .setName k m => { c with propNameToMetaMap := mapSet c.propNameToMetaMap k m }
       | .setIdx k v => { c with propIndexToNameMap := mapSet c.propIndexToNameMap k v }
       | _ => c)
      ops

/-- The map operations performed by `inClassIndexOfProp`: one lookup in
the forward map. -/
def inClassIndexOfPropOps (propName : String) : List MapOp :=
  [.getName propName]

/-- The map operations performed by `toPlainObject`: one reverse-map
lookup per raw value. -/
def toPlainObjectOps (entity : Entity) : List MapOp :=
  entity.entity_values.map (fun v => .getIdx v.in_class_index)

/-- The map operations performed by `toPlainObjects`: those of
`toPlainObject` for each entity, in order. -/
def toPlainObjectsOps (entities : List Entity) : List MapOp :=
  (entities.map toPlainObjectOps).flatten

/-- The map operations performed by `toSubstrateUpdate`: one forward-map
lookup per updated key. -/
def toSubstrateUpdateOps (updatedProps : List (String × JsValue)) : List MapOp :=
  updatedProps.map (fun p => .getName p.1)

/-- Specification-side description of one field's encoding outcome,
following the spec's words for the best-effort policy: a field name
absent from the forward map contributes nothing; a field whose per-field
encoding throws contributes nothing; a successfully encoded field
contributes its `(index, typed value)` entry. -/
def fieldEncodeResult (codec : EntityCodec) (p : String × JsValue) :
    Option (Nat × PropertyValueEnum) :=
  match mapGet codec.propNameToMetaMap p.1 with
  | some meta =>
    match plainToSubstrate meta.type p.2 with
    | .ok cv => some (meta.index % 65536, cv)
    | .error _ => none
  | none => none

/-- Specification-side reformulation of `toSubstrateUpdate` following the
spec's words: the per-field outcomes, aggregated by dropping the failed
and unknown fields. -/
def toSubstrateUpdateSpec (codec : EntityCodec)
    (updatedProps : List (String × JsValue)) : List (Nat × PropertyValueEnum) :=
  updatedProps.filterMap (fieldEncodeResult codec)

/- ------------------------------------------------------------------ -/
/- Theorems.                                                          -/
/- ------------------------------------------------------------------ -/

theorem mapGet_mapSet_self {α β : Type} [DecidableEq α]
    (m : List (α × β)) (k : α) (v : β) :
    mapGet (mapSet m k v) k = some v := by
  induction m with
  | nil => simp [mapSet, mapGet]
  | cons p ps ih =>
    by_cases h : p.1 = k
    · simp [mapSet, h, mapGet]
    · simp [mapSet, h, mapGet, ih]

theorem mapGet_mapSet_ne {α β : Type} [DecidableEq α]
    (m : List (α × β)) (k k' : α) (v : β) (h : k' ≠ k) :
    mapGet (mapSet m k v) k' = mapGet m k' := by
  have hne : ¬k = k' := fun hh => h hh.symm
  induction m with
  | nil => simp [mapSet, mapGet, hne]
  | cons p ps ih =>
    by_cases hp : p.1 = k
    · simp [mapSet, hp, mapGet, hne]
    · simp only [mapSet, hp, if_false, mapGet]
      by_cases hp' : p.1 = k'
      · simp [hp']
      · simp [hp', ih]

theorem mem_mapSet {α β : Type} [DecidableEq α]
    (m : List (α × β)) (k : α) (v : β) (k' : α) (v' : β)
    (h : (k', v') ∈ mapSet m k v) :
    (k', v') ∈ m ∨ (k' = k ∧ v' = v) := by
  induction m with
  | nil =>
    simp [mapSet] at h
    exact Or.inr ⟨h.1, h.2⟩
  | cons p ps ih =>
    by_cases hp : p.1 = k
    · simp only [mapSet, hp, if_true] at h
      rcases List.mem_cons.mp h with h1 | h1
      · exact Or.inr ⟨congrArg Prod.fst h1, congrArg Prod.snd h1⟩
      · exact Or.inl (List.mem_cons_of_mem _ h1)
    · simp only [mapSet, hp, if_false] at h
      rcases List.mem_cons.mp h with h1 | h1
      · exact Or.inl (h1 ▸ List.mem_cons_self _ _)
      · rcases ih h1 with h2 | h2
        · exact Or.inl (List.mem_cons_of_mem _ h2)
        · exact Or.inr h2

theorem valueAsBool_str (s : String) :
    valueAsBool (.str s) = .ok (["true", "yes", "1"].contains (jsToLower s)) := by
  show (if ["true", "yes", "1"].contains (jsToLower s) then Except.ok true
        else Except.ok false) = _
  cases hc : ["true", "yes", "1"].contains (jsToLower s) <;> simp

theorem valueAsBool_num (n : Int) :
    valueAsBool (.num n) = .ok (["true", "yes", "1"].contains (jsToLower (toString n))) := by
  show (if ["true", "yes", "1"].contains (jsToLower (toString n)) then Except.ok true
        else Except.ok false) = _
  cases hc : ["true", "yes", "1"].contains (jsToLower (toString n)) <;> simp

/-- C3.  Boolean coercion: encoding with type name `Bool` returns a native
boolean input unchanged; a string or number input is lower-cased in its
string form and yields true exactly when that form is one of
`true`, `yes`, `1` (in particular the table over
`"true"`, `"Yes"`, `"1"`, `1`, `true` and `"false"`, `"no"`, `"0"`, `0`,
`false`); any input that is not a string, number or boolean fails with the
unsupported-boolean-representation error. -/
theorem bool_coercion_contract :
    (∀ b : Bool, plainToSubstrate "Bool" (.bool b) = .ok (.bool_ b)) ∧
    (∀ s : String, plainToSubstrate "Bool" (.str s)
        = .ok (.bool_ (["true", "yes", "1"].contains (jsToLower s)))) ∧
    (∀ n : Int, plainToSubstrate "Bool" (.num n)
        = .ok (.bool_ (["true", "yes", "1"].contains (jsToLower (toString n))))) ∧
    (plainToSubstrate "Bool" (.str "true") = .ok (.bool_ true) ∧
     plainToSubstrate "Bool" (.str "Yes") = .ok (.bool_ true) ∧
     plainToSubstrate "Bool" (.str "1") = .ok (.bool_ true) ∧
     plainToSubstrate "Bool" (.num 1) = .ok (.bool_ true) ∧
     plainToSubstrate "Bool" (.bool true) = .ok (.bool_ true) ∧
     plainToSubstrate "Bool" (.str "false") = .ok (.bool_ false) ∧
     plainToSubstrate "Bool" (.str "no") = .ok (.bool_ false) ∧
     plainToSubstrate "Bool" (.str "0") = .ok (.bool_ false) ∧
     plainToSubstrate "Bool" (.num 0) = .ok (.bool_ false) ∧
     plainToSubstrate "Bool" (.bool false) = .ok (.bool_ false)) ∧
    (∀ v : JsValue, isBoolCoercible v = false →
      plainToSubstrate "Bool" v
        = .error ("Unsupported representation of a boolean value")) := by
  refine ⟨fun b => rfl, fun s => ?_, fun n => ?_,
    ⟨rfl, rfl, rfl, rfl, rfl, rfl, rfl, rfl, rfl, rfl⟩, fun v hv => ?_⟩
  · show (valueAsBool (.str s)).map PropertyValueEnum.bool_ = _
    rw [valueAsBool_str]
    rfl
  · show (valueAsBool (.num n)).map PropertyValueEnum.bool_ = _
    rw [valueAsBool_num]
    rfl
  · cases v with
    | str s => exact Bool.noConfusion hv
    | num n => exact Bool.noConfusion hv
    | bool b => exact Bool.noConfusion hv
    | arr xs => rfl
    | obj => rfl
    | undef => rfl
    | nullV => rfl

/-- Witness for C3: the unsupported-shape hypothesis discharged at the
plain-object input. -/
theorem bool_coercion_contract_witness :
    isBoolCoercible JsValue.obj = false ∧
    plainToSubstrate "Bool" JsValue.obj
      = .error ("Unsupported representation of a boolean value") :=
  ⟨rfl, bool_coercion_contract.2.2.2.2 JsValue.obj rfl⟩

/-- C9.  Registration never fatal: whatever the outcome of the underlying
type-registry registration, `registerVersionedStorePermissionsTypes`
returns normally; a throwing registration is caught and logged. -/
theorem registration_never_fatal (registerAttempt : Except String Unit) :
    (∃ logs, registerVersionedStorePermissionsTypes registerAttempt = .ok ((), logs)) ∧
    (∀ e : String, registerAttempt = .error e →
      registerVersionedStorePermissionsTypes registerAttempt
        = .ok ((), ["Failed to register custom types of versioned store module"])) := by
  cases registerAttempt with
  | ok u => exact ⟨⟨[], rfl⟩, fun e he => Except.noConfusion he⟩
  | error err => exact ⟨⟨_, rfl⟩, fun e _ => rfl⟩

/-- Witness for C9: a throwing registration is caught, logged and the
function still returns normally. -/
theorem registration_never_fatal_witness :
    (∃ logs, registerVersionedStorePermissionsTypes (.error "boom") = .ok ((), logs)) ∧
    registerVersionedStorePermissionsTypes (.error "boom")
      = .ok ((), ["Failed to register custom types of versioned store module"]) :=
  ⟨(registration_never_fatal (.error "boom")).1,
   (registration_never_fatal (.error "boom")).2 "boom" rfl⟩

/-- C2 (code bug).  The claim and the spec say boolean-vector encoding
applies the boolean coercion element-wise, but in the source
`valueAsBool` is a nullary closure over the outer `value`, so
`(value as []).map(valueAsBool)` coerces the whole array on every call:
encoding with `BoolVec` throws the unsupported-boolean-representation
error for every non-empty array and succeeds only (vacuously) on the
empty array.  The other Vec type names do pass the input array through
unchanged, as the claim states. -/
theorem boolVec_encoding_throws (x : JsValue) (xs : List JsValue) :
    plainToSubstrate "BoolVec" (.arr (x :: xs))
      = .error ("Unsupported representation of a boolean value") ∧
    plainToSubstrate "BoolVec" (.arr [.bool true, .str "yes"])
      = .error ("Unsupported representation of a boolean value") ∧
    plainToSubstrate "BoolVec" (.arr []) = .ok (.boolVec []) ∧
    (∀ ys : List JsValue,
      plainToSubstrate "Uint16Vec" (.arr ys) = .ok (.uint16Vec (.arr ys)) ∧
      plainToSubstrate "Uint32Vec" (.arr ys) = .ok (.uint32Vec (.arr ys)) ∧
      plainToSubstrate "Uint64Vec" (.arr ys) = .ok (.uint64Vec (.arr ys)) ∧
      plainToSubstrate "Int16Vec" (.arr ys) = .ok (.int16Vec (.arr ys)) ∧
      plainToSubstrate "Int32Vec" (.arr ys) = .ok (.int32Vec (.arr ys)) ∧
      plainToSubstrate "Int64Vec" (.arr ys) = .ok (.int64Vec (.arr ys)) ∧
      plainToSubstrate "TextVec" (.arr ys) = .ok (.textVec (.arr ys)) ∧
      plainToSubstrate "InternalVec" (.arr ys) = .ok (.internalVec (.arr ys))) :=
  ⟨rfl, rfl, rfl, fun _ys => ⟨rfl, rfl, rfl, rfl, rfl, rfl, rfl, rfl⟩⟩

theorem updateStep_eq (codec : EntityCodec) (acc : List (Nat × PropertyValueEnum))
    (p : String × JsValue) :
    updateStep codec acc p = acc ++ (fieldEncodeResult codec p).toList := by
  unfold updateStep fieldEncodeResult
  rcases hm : mapGet codec.propNameToMetaMap p.1 with _ | meta
  · simp
  · rcases hp : plainToSubstrate meta.type p.2 with e | cv
    · simp [hp]
    · simp [hp]

theorem foldl_updateStep (codec : EntityCodec) (ups : List (String × JsValue)) :
    ∀ acc, ups.foldl (updateStep codec) acc = acc ++ toSubstrateUpdateSpec codec ups := by
  induction ups with
  | nil => intro acc; simp [toSubstrateUpdateSpec]
  | cons p ups ih =>
    intro acc
    show ups.foldl (updateStep codec) (updateStep codec acc p) = _
    rw [ih, updateStep_eq]
    simp [toSubstrateUpdateSpec, List.filterMap_cons]
    cases fieldEncodeResult codec p <;> simp

/-- C4.  Best-effort encode: `toSubstrateUpdate` never fails as a whole —
it equals the per-field best-effort aggregation in which a field whose
per-field encoding throws is dropped, a field name absent from the
forward map is silently ignored, and every remaining field contributes
its `(index, typed value)` entry.  In particular, an update with one
field of an unknown type name and one field of a valid type name
produces an output containing only the valid field's entry. -/
theorem best_effort_encode :
    (∀ (codec : EntityCodec) (ups : List (String × JsValue)),
      toSubstrateUpdate codec ups = toSubstrateUpdateSpec codec ups) ∧
    toSubstrateUpdate (EntityCodec.ofClass ⟨[⟨"A", "SomeBadType"⟩, ⟨"B", "Bool"⟩]⟩)
        [("a", .str "x"), ("b", .bool true)]
      = [(1, .bool_ true)] := by
  constructor
  · intro codec ups
    show ups.foldl (updateStep codec) [] = _
    rw [foldl_updateStep]
    rfl
  · rfl

theorem applyMapOps_of_reads (ops : List MapOp) :
    ∀ c : EntityCodec, ops.all MapOp.isRead = true → applyMapOps c ops = c := by
  induction ops with
  | nil => intro c _; rfl
  | cons op ops ih =>
    intro c h
    rw [List.all_cons, Bool.and_eq_true] at h
    cases op with
    | getName k => exact ih c h.2
    | getIdx k => exact ih c h.2
    | setName k m => exact Bool.noConfusion h.1
    | setIdx k v => exact Bool.noConfusion h.1

theorem toPlainObjectOps_all_reads (entity : Entity) :
    (toPlainObjectOps entity).all MapOp.isRead = true := by
  unfold toPlainObjectOps
  rw [List.all_eq_true]
  intro op hop
  rw [List.mem_map] at hop
  obtain ⟨v, _, hv⟩ := hop
  rw [← hv]
  rfl

/-- C8.  Map immutability after construction: each operation invoked after
the constructor returns performs only read operations on the instance's
`propNameToMetaMap` and `propIndexToNameMap` (their operation traces are
`get`-only), so replaying any of those traces against the codec state
leaves both maps unchanged. -/
theorem maps_immutable_after_construction (codec : EntityCodec) (propName : String)
    (entity : Entity) (entities : List Entity)
    (updatedProps : List (String × JsValue)) :
    ((inClassIndexOfPropOps propName).all MapOp.isRead = true ∧
      applyMapOps codec (inClassIndexOfPropOps propName) = codec) ∧
    ((toPlainObjectOps entity).all MapOp.isRead = true ∧
      applyMapOps codec (toPlainObjectOps entity) = codec) ∧
    ((toPlainObjectsOps entities).all MapOp.isRead = true ∧
      applyMapOps codec (toPlainObjectsOps entities) = codec) ∧
    ((toSubstrateUpdateOps updatedProps).all MapOp.isRead = true ∧
      applyMapOps codec (toSubstrateUpdateOps updatedProps) = codec) := by
  have h1 : (inClassIndexOfPropOps propName).all MapOp.isRead = true := rfl
  have h2 := toPlainObjectOps_all_reads entity
  have h3 : (toPlainObjectsOps entities).all MapOp.isRead = true := by
    unfold toPlainObjectsOps
    rw [List.all_eq_true]
    intro op hop
    rw [List.mem_flatten] at hop
    obtain ⟨l, hl, hop⟩ := hop
    rw [List.mem_map] at hl
    obtain ⟨e, _, he⟩ := hl
    have := toPlainObjectOps_all_reads e
    rw [List.all_eq_true] at this
    exact this op (he ▸ hop)
  have h4 : (toSubstrateUpdateOps updatedProps).all MapOp.isRead = true := by
    unfold toSubstrateUpdateOps
    rw [List.all_eq_true]
    intro op hop
    rw [List.mem_map] at hop
    obtain ⟨p, _, hp⟩ := hop
    rw [← hp]
    rfl
  exact ⟨⟨h1, applyMapOps_of_reads _ codec h1⟩,
         ⟨h2, applyMapOps_of_reads _ codec h2⟩,
         ⟨h3, applyMapOps_of_reads _ codec h3⟩,
         ⟨h4, applyMapOps_of_reads _ codec h4⟩⟩

theorem applyEntityValue_unmapped (codec : EntityCodec)
    (fs : List (String × Option JsValue)) (v : EntityValue)
    (h : mapGet codec.propIndexToNameMap v.in_class_index = none) :
    applyEntityValue codec fs v = fs := by
  unfold applyEntityValue
  rw [h]

theorem applyEntityValue_empty_name (codec : EntityCodec)
    (fs : List (String × Option JsValue)) (v : EntityValue)
    (h : mapGet codec.propIndexToNameMap v.in_class_index = some "") :
    applyEntityValue codec fs v = fs := by
  unfold applyEntityValue
  rw [h]
  simp

/-- C5.  Unknown index is dropped, not erroring: a raw record value pair
whose property index has no entry in the reverse map contributes nothing
to `toPlainObject`; the result is exactly the result for the same record
without that pair, so no key for that index appears and no other field
is affected. -/
theorem unknown_index_dropped (codec : EntityCodec) (e : Entity)
    (l1 l2 : List EntityValue) (idx : Nat) (v : SubstrateValue)
    (hidx : mapGet codec.propIndexToNameMap idx = none)
    (hvals : e.entity_values = l1 ++ ⟨idx, v⟩ :: l2) :
    toPlainObject codec e
      = toPlainObject codec { e with entity_values := l1 ++ l2 } := by
  unfold toPlainObject
  simp only [hvals]
  congr 1
  rw [List.foldl_append, List.foldl_append, List.foldl_cons]
  rw [applyEntityValue_unmapped codec _ ⟨idx, v⟩ hidx]

/-- Witness for C5: a record holding a value at index 5 against an empty
schema decodes exactly as the record without that value. -/
theorem unknown_index_dropped_witness :
    mapGet (EntityCodec.ofClass ⟨[]⟩).propIndexToNameMap 5 = none ∧
    toPlainObject (EntityCodec.ofClass ⟨[]⟩) ⟨1, [0], 2, [⟨5, .text "x"⟩]⟩
      = toPlainObject (EntityCodec.ofClass ⟨[]⟩) ⟨1, [0], 2, []⟩ :=
  ⟨rfl, unknown_index_dropped (EntityCodec.ofClass ⟨[]⟩) ⟨1, [0], 2, [⟨5, .text "x"⟩]⟩
    [] [] 5 (.text "x") rfl rfl⟩

theorem mem_foldl_applyEntityValue (codec : EntityCodec) (vs : List EntityValue) :
    ∀ (acc : List (String × Option JsValue)) (k : String) (ov : Option JsValue),
      (k, ov) ∈ vs.foldl (applyEntityValue codec) acc →
      (k, ov) ∈ acc ∨
        ∃ ev, ev ∈ vs ∧ mapGet codec.propIndexToNameMap ev.in_class_index = some k ∧
          k ≠ "" ∧ ov = substrateToPlain ev.value := by
  induction vs with
  | nil => intro acc k ov h; exact Or.inl h
  | cons v vs ih =>
    intro acc k ov h
    rw [List.foldl_cons] at h
    rcases ih _ k ov h with h1 | h1
    · unfold applyEntityValue at h1
      rcases hm : mapGet codec.propIndexToNameMap v.in_class_index with _ | propName
      · simp only [hm] at h1
        exact Or.inl h1
      · simp only [hm] at h1
        by_cases he : propName = ""
        · rw [if_pos he] at h1
          exact Or.inl h1
        · rw [if_neg he] at h1
          rcases mem_mapSet _ _ _ _ _ h1 with h2 | h2
          · exact Or.inl h2
          · refine Or.inr ⟨v, List.mem_cons_self _ _, ?_, ?_, h2.2⟩
            · rw [hm, h2.1]
            · rw [h2.1]; exact he
    · obtain ⟨ev, hev, hrest⟩ := h1
      exact Or.inr ⟨ev, List.mem_cons_of_mem _ hev, hrest⟩

/-- C6.  Decode never raises: `toPlainObject` is a total function that
copies the three metadata fields verbatim, and every property field of
its result comes from a raw value whose index is mapped to a truthy
name — it degrades only by omission (the embedding of the decode path
is `Option`-valued, never `Except`-valued: there is no throw site). -/
theorem decode_never_raises (codec : EntityCodec) (e : Entity) :
    (toPlainObject codec e).classId = e.class_id ∧
    (toPlainObject codec e).inClassSchemaIndexes = e.in_class_schema_indexes ∧
    (toPlainObject codec e).id = e.id ∧
    (∀ (k : String) (ov : Option JsValue), (k, ov) ∈ (toPlainObject codec e).fields →
      ∃ ev, ev ∈ e.entity_values ∧
        mapGet codec.propIndexToNameMap ev.in_class_index = some k ∧
        k ≠ "" ∧ ov = substrateToPlain ev.value) ∧
    toPlainObjects codec [e] = [toPlainObject codec e] := by
  refine ⟨rfl, rfl, rfl, ?_, rfl⟩
  intro k ov h
  rcases mem_foldl_applyEntityValue codec e.entity_values [] k ov h with h1 | h1
  · exact absurd h1 (List.not_mem_nil _)
  · exact h1

/-- Witness for C6: the field-membership hypothesis discharged at a
one-property schema and a matching record. -/
theorem decode_never_raises_witness :
    (("a", some (JsValue.str "v"))
        ∈ (toPlainObject (EntityCodec.ofClass ⟨[⟨"A", "Text"⟩]⟩)
            ⟨1, [0], 2, [⟨0, .text "v"⟩]⟩).fields) ∧
    ∃ ev, ev ∈ [(⟨0, .text "v"⟩ : EntityValue)] ∧
      mapGet (EntityCodec.ofClass ⟨[⟨"A", "Text"⟩]⟩).propIndexToNameMap
          ev.in_class_index = some "a" ∧
      "a" ≠ "" ∧ some (JsValue.str "v") = substrateToPlain ev.value :=
  ⟨by
    show ("a", some (JsValue.str "v")) ∈ [("a", some (JsValue.str "v"))]
    exact List.mem_singleton.mpr rfl,
   (decode_never_raises (EntityCodec.ofClass ⟨[⟨"A", "Text"⟩]⟩)
      ⟨1, [0], 2, [⟨0, .text "v"⟩]⟩).2.2.2.1 "a" (some (JsValue.str "v"))
     (by
       show ("a", some (JsValue.str "v")) ∈ [("a", some (JsValue.str "v"))]
       exact List.mem_singleton.mpr rfl)⟩

theorem registerProps_nameGet_of_not_mem (ps : List ClassProperty) :
    ∀ (c : EntityCodec) (n : Nat) (k : String),
      k ∉ ps.map (fun p => propNameToJsFieldStyle p.name) →
      mapGet (registerProps c n ps).propNameToMetaMap k
        = mapGet c.propNameToMetaMap k := by
  induction ps with
  | nil => intro c n k _; rfl
  | cons p ps ih =>
    intro c n k hk
    rw [List.map_cons, List.mem_cons, not_or] at hk
    show mapGet (registerProps _ (n + 1) ps).propNameToMetaMap k = _
    rw [ih _ (n + 1) k hk.2]
    exact mapGet_mapSet_ne _ _ _ _ hk.1

theorem registerProps_nameGet_self (ps : List ClassProperty) :
    ∀ (c : EntityCodec) (n i : Nat) (hi : i < ps.length),
      (ps.map (fun p => propNameToJsFieldStyle p.name)).Nodup →
      mapGet (registerProps c n ps).propNameToMetaMap
          (propNameToJsFieldStyle (ps.get ⟨i, hi⟩).name)
        = some ⟨n + i, (ps.get ⟨i, hi⟩).prop_type⟩ := by
  induction ps with
  | nil => intro c n i hi _; exact absurd hi (Nat.not_lt_zero i)
  | cons p ps ih =>
    intro c n i hi hnd
    rw [List.map_cons, List.nodup_cons] at hnd
    cases i with
    | zero =>
      show mapGet (registerProps _ (n + 1) ps).propNameToMetaMap
          (propNameToJsFieldStyle p.name) = some ⟨n + 0, p.prop_type⟩
      rw [registerProps_nameGet_of_not_mem ps _ (n + 1) _ hnd.1]
      show mapGet (mapSet c.propNameToMetaMap (propNameToJsFieldStyle p.name)
          ⟨n, p.prop_type⟩) (propNameToJsFieldStyle p.name) = _
      rw [mapGet_mapSet_self]
      rfl
    | succ j =>
      have hj : j < ps.length := Nat.lt_of_succ_lt_succ hi
      show mapGet (registerProps
          ⟨mapSet c.propNameToMetaMap (propNameToJsFieldStyle p.name) ⟨n, p.prop_type⟩,
           mapSet c.propIndexToNameMap n (propNameToJsFieldStyle p.name)⟩
          (n + 1) ps).propNameToMetaMap
          (propNameToJsFieldStyle (ps.get ⟨j, hj⟩).name)
          = some ⟨n + (j + 1), (ps.get ⟨j, hj⟩).prop_type⟩
      have harith : n + (j + 1) = n + 1 + j := by omega
      rw [harith]
      exact ih _ (n + 1) j hj hnd.2

theorem registerProps_idxGet_of_lt (ps : List ClassProperty) :
    ∀ (c : EntityCodec) (n k : Nat), k < n →
      mapGet (registerProps c n ps).propIndexToNameMap k
        = mapGet c.propIndexToNameMap k := by
  induction ps with
  | nil => intro c n k _; rfl
  | cons p ps ih =>
    intro c n k hk
    show mapGet (registerProps _ (n + 1) ps).propIndexToNameMap k = _
    rw [ih _ (n + 1) k (Nat.lt_succ_of_lt hk)]
    exact mapGet_mapSet_ne _ _ _ _ (Nat.ne_of_lt hk)

theorem registerProps_idxGet_self (ps : List ClassProperty) :
    ∀ (c : EntityCodec) (n i : Nat) (hi : i < ps.length),
      mapGet (registerProps c n ps).propIndexToNameMap (n + i)
        = some (propNameToJsFieldStyle (ps.get ⟨i, hi⟩).name) := by
  induction ps with
  | nil => intro c n i hi; exact absurd hi (Nat.not_lt_zero i)
  | cons p ps ih =>
    intro c n i hi
    cases i with
    | zero =>
      show mapGet (registerProps _ (n + 1) ps).propIndexToNameMap (n + 0)
          = some (propNameToJsFieldStyle p.name)
      rw [registerProps_idxGet_of_lt ps _ (n + 1) (n + 0) (by omega)]
      show mapGet (mapSet c.propIndexToNameMap n (propNameToJsFieldStyle p.name))
          (n + 0) = _
      rw [Nat.add_zero, mapGet_mapSet_self]
    | succ j =>
      have hj : j < ps.length := Nat.lt_of_succ_lt_succ hi
      show mapGet (registerProps
          ⟨mapSet c.propNameToMetaMap (propNameToJsFieldStyle p.name) ⟨n, p.prop_type⟩,
           mapSet c.propIndexToNameMap n (propNameToJsFieldStyle p.name)⟩
          (n + 1) ps).propIndexToNameMap (n + (j + 1))
          = some (propNameToJsFieldStyle (ps.get ⟨j, hj⟩).name)
      have harith : n + (j + 1) = n + 1 + j := by omega
      rw [harith]
      exact ih _ (n + 1) j hj

/-- C7.  Index stability under construction: for a schema whose
canonicalized field names are pairwise distinct, `inClassIndexOfProp`
returns exactly `some i` for the canonicalized name of the property at
zero-based schema position `i` (hence the indices 0..N-1, each unique),
and `none` for every other name. -/
theorem index_stability (cls : Class)
    (hnd : (cls.properties.map (fun p => propNameToJsFieldStyle p.name)).Nodup) :
    (∀ (i : Nat) (hi : i < cls.properties.length),
      inClassIndexOfProp (EntityCodec.ofClass cls)
          (propNameToJsFieldStyle (cls.properties.get ⟨i, hi⟩).name) = some i) ∧
    (∀ s : String, s ∉ cls.properties.map (fun p => propNameToJsFieldStyle p.name) →
      inClassIndexOfProp (EntityCodec.ofClass cls) s = none) := by
  constructor
  · intro i hi
    unfold inClassIndexOfProp EntityCodec.ofClass
    rw [registerProps_nameGet_self cls.properties ⟨[], []⟩ 0 i hi hnd]
    simp
  · intro s hs
    unfold inClassIndexOfProp EntityCodec.ofClass
    rw [registerProps_nameGet_of_not_mem cls.properties ⟨[], []⟩ 0 s hs]
    rfl

/-- Witness for C7: a two-property schema with distinct canonicalized
names yields indices 0 and 1 at those names and none elsewhere. -/
theorem index_stability_witness :
    ((⟨[⟨"Full Name", "Text"⟩, ⟨"Is Public", "Bool"⟩]⟩ : Class).properties.map
        (fun p => propNameToJsFieldStyle p.name)).Nodup ∧
    inClassIndexOfProp
        (EntityCodec.ofClass ⟨[⟨"Full Name", "Text"⟩, ⟨"Is Public", "Bool"⟩]⟩)
        "fullName" = some 0 ∧
    inClassIndexOfProp
        (EntityCodec.ofClass ⟨[⟨"Full Name", "Text"⟩, ⟨"Is Public", "Bool"⟩]⟩)
        "isPublic" = some 1 ∧
    inClassIndexOfProp
        (EntityCodec.ofClass ⟨[⟨"Full Name", "Text"⟩, ⟨"Is Public", "Bool"⟩]⟩)
        "other" = none := by
  have hnd : ((⟨[⟨"Full Name", "Text"⟩, ⟨"Is Public", "Bool"⟩]⟩ : Class).properties.map
      (fun p => propNameToJsFieldStyle p.name)).Nodup := by decide
  refine ⟨hnd, ?_, ?_, ?_⟩
  · exact (index_stability _ hnd).1 0 (by decide)
  · exact (index_stability _ hnd).1 1 (by decide)
  · exact (index_stability _ hnd).2 "other" (by decide)

/-- C10.  Implicit truthiness guard on the decoded field name: a property
whose human-friendly name canonicalizes to the empty string is silently
omitted by `toPlainObject` even when the raw record supplies a value at
that property's valid index, because the empty field name fails the
truthiness check after the index-to-name lookup. -/
theorem empty_field_name_omitted (cls : Class) (i : Nat)
    (hi : i < cls.properties.length)
    (hempty : propNameToJsFieldStyle (cls.properties.get ⟨i, hi⟩).name = "")
    (e : Entity) (l1 l2 : List EntityValue) (v : SubstrateValue)
    (hvals : e.entity_values = l1 ++ ⟨i, v⟩ :: l2) :
    toPlainObject (EntityCodec.ofClass cls) e
      = toPlainObject (EntityCodec.ofClass cls) { e with entity_values := l1 ++ l2 } := by
  have hidx : mapGet (EntityCodec.ofClass cls).propIndexToNameMap i = some "" := by
    have := registerProps_idxGet_self cls.properties ⟨[], []⟩ 0 i hi
    rw [Nat.zero_add] at this
    rw [← hempty]
    exact this
  unfold toPlainObject
  simp only [hvals]
  congr 1
  rw [List.foldl_append, List.foldl_append, List.foldl_cons]
  rw [applyEntityValue_empty_name _ _ ⟨i, v⟩ hidx]

/-- Witness for C10: a schema whose only property is named `!!!`
(canonicalizing to the empty string) drops that property's supplied
value from the decode result. -/
theorem empty_field_name_omitted_witness :
    propNameToJsFieldStyle "!!!" = "" ∧
    toPlainObject (EntityCodec.ofClass ⟨[⟨"!!!", "Text"⟩]⟩)
        ⟨1, [0], 7, [⟨0, .text "x"⟩]⟩
      = toPlainObject (EntityCodec.ofClass ⟨[⟨"!!!", "Text"⟩]⟩) ⟨1, [0], 7, []⟩ :=
  ⟨rfl, empty_field_name_omitted ⟨[⟨"!!!", "Text"⟩]⟩ 0 (by decide) rfl
    ⟨1, [0], 7, [⟨0, .text "x"⟩]⟩ [] [] (.text "x") rfl⟩

/-- C1.  Round-trip for scalar fields: for every scalar property type
name and every representative plain value of that type (64-bit integer
representatives capped to the JavaScript safe-integer range, since the
big-number/number boundary is lossy beyond it), encoding with
`plainToSubstrate`, materializing the raw on-chain codec value of the
result, and decoding it with `substrateToPlain` yields the value back
(for `None`, whose assignments carry no payload, the decode result is
the absent value). -/
theorem scalar_round_trip :
    ∀ t ∈ scalarTypeNames, ∀ v : JsValue, isRepresentative t v = true →
      encodeDecode t v = some (if t = "None" then none else some v) := by
  intro t ht v hv
  fin_cases ht
  · rw [if_pos rfl]
    rfl
  · cases v <;> first
      | exact Bool.noConfusion hv
      | (rw [if_neg (by decide)]; rfl)
  · cases v <;> first
      | exact Bool.noConfusion hv
      | (rw [if_neg (by decide)]; rfl)
  · cases v <;> first
      | exact Bool.noConfusion hv
      | (rw [if_neg (by decide)]; rfl)
  · cases v <;> first
      | exact Bool.noConfusion hv
      | (rw [if_neg (by decide)]; rfl)
  · cases v <;> first
      | exact Bool.noConfusion hv
      | (rw [if_neg (by decide)]; rfl)
  · cases v <;> first
      | exact Bool.noConfusion hv
      | (rw [if_neg (by decide)]; rfl)
  · cases v <;> first
      | exact Bool.noConfusion hv
      | (rw [if_neg (by decide)]; rfl)
  · cases v <;> first
      | exact Bool.noConfusion hv
      | (rw [if_neg (by decide)]; rfl)
  · cases v <;> first
      | exact Bool.noConfusion hv
      | (rw [if_neg (by decide)]; rfl)

/-- Witness for C1: the hypotheses discharged at type name `Text` and the
string value `abc`. -/
theorem scalar_round_trip_witness :
    ("Text" ∈ scalarTypeNames ∧ isRepresentative "Text" (.str "abc") = true) ∧
    encodeDecode "Text" (.str "abc") = some (some (.str "abc")) :=
  ⟨⟨by decide, rfl⟩, by
    have h := scalar_round_trip "Text" (by decide) (.str "abc") rfl
    rw [if_neg (by decide)] at h
    exact h⟩

end Pioneer
